import Mathlib

/-!
# Verification of the VibeShuffle similarity-driven playback engine

Shallow embedding of `src/main.py` (class `MusicPlayer`) and of the cache-key
logic of `initialize_embeddings`.

Modelling conventions:
* Embedding vectors are `List ℚ`; numpy float arithmetic is modelled exactly
  over the rationals.
* `np.linalg.norm` distances are compared through their squares (`dist2`),
  which is order- and threshold-equivalent for non-negative reals: the
  near-duplicate test `dist < 0.26` becomes `dist2 < thr2` with
  `thr2 = 0.26 ^ 2 = 169 / 2500`.
* `np.inf` entries written into the distance array for excluded indices are
  modelled by `⊤ : WithTop ℚ`.
* `np.argsort` is modelled as a sort of `(index, distance)` pairs that breaks
  distance ties by the original index.
* Fallible operations (Python `IndexError` on an exhausted queue, `ValueError`
  on unzipping an empty list) return `Option`; randomness
  (`random.randint`, `random.shuffle`) and the external mixer state
  (`pygame.mixer.music.get_busy`) are explicit parameters.
* The effects sent to the audio backend (`pygame.mixer.music.load/play/...`)
  are recorded in an `audio_calls` log so that frame conditions about the
  backend are statable.
-/

namespace VibeShuffle

/-- Squared L2 distance between two vectors: the square of
`np.linalg.norm(a - b)`.  Comparing squared distances is equivalent to
comparing the norms themselves. -/
def dist2 (a b : List ℚ) : ℚ := ((a.zip b).map (fun p => (p.1 - p.2) ^ 2)).sum

/-- Square of the near-duplicate threshold `0.26` hard-coded in
`MusicPlayer.next_track` (`dist < 0.26` iff `dist ^ 2 < 169 / 2500`). -/
def thr2 : ℚ := 169 / 2500

/-- Comparison used to model `np.argsort` on the distance array: pairs
`(index, distance)` are ordered by distance, ties broken by index. -/
def pairLE (a b : ℕ × WithTop ℚ) : Prop :=
  a.2 < b.2 ∨ (a.2 = b.2 ∧ a.1 ≤ b.1)

instance : DecidableRel pairLE := fun a b =>
  inferInstanceAs (Decidable (a.2 < b.2 ∨ (a.2 = b.2 ∧ a.1 ≤ b.1)))

instance : IsTotal (ℕ × WithTop ℚ) pairLE where
  total a b := by
    rcases lt_trichotomy a.2 b.2 with h | h | h
    · exact Or.inl (Or.inl h)
    · rcases Nat.le_total a.1 b.1 with h1 | h1
      · exact Or.inl (Or.inr ⟨h, h1⟩)
      · exact Or.inr (Or.inr ⟨h.symm, h1⟩)
    · exact Or.inr (Or.inl h)

instance : IsTrans (ℕ × WithTop ℚ) pairLE where
  trans a b c hab hbc := by
    rcases hab with hab | ⟨hab, hab'⟩
    · rcases hbc with hbc | ⟨hbc, _⟩
      · exact Or.inl (hab.trans hbc)
      · exact Or.inl (hbc ▸ hab)
    · rcases hbc with hbc | ⟨hbc, hbc'⟩
      · exact Or.inl (hab ▸ hbc)
      · exact Or.inr ⟨hab.trans hbc, hab'.trans hbc'⟩

/-- The loop `for idx in self.recently_played: distances[idx] = np.inf` in
`MusicPlayer.find_nearest_embeddings`.  (`List.set` ignores out-of-range
indices; in the player every stored index is in range.) -/
def excludeDistances (ds : List (WithTop ℚ)) (excl : List ℕ) : List (WithTop ℚ) :=
  excl.foldl (fun d i => d.set i ⊤) ds

/-- `np.argsort(distances)`: indices of the distance array sorted by
distance (ascending; ties by index). -/
def argsort (ds : List (WithTop ℚ)) : List ℕ :=
  (List.insertionSort pairLE ds.enum).map Prod.fst

/-- `MusicPlayer.find_nearest_embeddings`, as a function of the fields it
reads: the store of embeddings, the query vector (`self.current_embedding`),
the exclusion list (`self.recently_played`) and `k`.  Computes all distances,
overwrites excluded entries with `+∞`, and takes the first `k` positions of
the argsort. -/
def find_nearest_embeddings (embs : List (List ℚ)) (q : List ℚ)
    (excl : List ℕ) (k : ℕ) : List ℕ :=
  (argsort (excludeDistances (embs.map (fun v => ((dist2 v q : ℚ) : WithTop ℚ))) excl)).take k

/-- The modified distance that `find_nearest_embeddings` effectively sorts
by: `+∞` for an excluded index, otherwise the squared distance to the query. -/
def modDist (embs : List (List ℚ)) (q : List ℚ) (excl : List ℕ) (i : ℕ) : WithTop ℚ :=
  if i ∈ excl then ⊤ else ((dist2 (embs.getD i []) q : ℚ) : WithTop ℚ)

/-! ## Cache fingerprint (`MusicPlayer.initialize_embeddings`) -/

/-- An audio file as the cache logic sees it: a base name and raw content
bytes. -/
structure AudioFile where
  name : String
  content : List ℕ
deriving DecidableEq

/-- `os.path.getsize(file)`: the byte length of the content. -/
def fileSize (f : AudioFile) : ℕ := f.content.length

/-- The cache key `f"\x7bfile_name\x7d_\x7bfile_size\x7d"` used to name the
`.npz` record: the file's base name and its byte size.  The file's content
enters only through its length. -/
def cacheKey (f : AudioFile) : String := f.name ++ "_" ++ toString (fileSize f)

/-- `cache_file.exists()`: whether a cache record for the file's key is
present. -/
def isCached (cache : List String) (f : AudioFile) : Bool :=
  cache.contains (cacheKey f)

/-- Step 1 of `initialize_embeddings`: split the discovered files into those
whose cache record exists (loaded from cache) and the new ones (embedded and
cached). -/
def partitionFiles (cache : List String) (files : List AudioFile) :
    List AudioFile × List AudioFile :=
  (files.filter (fun f => isCached cache f), files.filter (fun f => !(isCached cache f)))

/-! ## Player state (`MusicPlayer.__init__`) and operations -/

/-- Calls issued to the external audio backend (`pygame.mixer.music`). -/
inductive AudioCall where
  | load (path : String)
  | play
  | pause
  | unpause
deriving DecidableEq

/-- The mutable fields of `MusicPlayer` that the playback engine touches.
`cap` is the fixed `maxlen = len(self.playlist_paths) - 1` the two deques are
created with in `__init__`. -/
structure PlayerState where
  playlist_paths : List String
  music_embeddings : List (List ℚ)
  current_embedding : Option (List ℚ)
  current_track_index : ℕ
  next_tracks_indices : List ℕ
  is_playing : Bool
  history : List ℕ
  recently_played : List ℕ
  cap : ℕ
  audio_calls : List AudioCall
deriving DecidableEq

/-- `collections.deque(maxlen := c).append(x)`: append on the right, dropping
from the left whatever does not fit into the capacity. -/
def dequeAppend (c : ℕ) (l : List ℕ) (x : ℕ) : List ℕ :=
  (l ++ [x]).drop ((l ++ [x]).length - c)

/-- The state right after `MusicPlayer.__init__` finished with the given
parallel arrays (`current_track_index = 0`, nothing played yet, both deques
empty, default not-playing status before the first toggle). -/
def initState (paths : List String) (embs : List (List ℚ)) : PlayerState where
  playlist_paths := paths
  music_embeddings := embs
  current_embedding := none
  current_track_index := 0
  next_tracks_indices := []
  is_playing := false
  history := []
  recently_played := []
  cap := paths.length - 1
  audio_calls := []

/-- `MusicPlayer.play_current_track`: loads and plays the current track,
caches its embedding and pushes the current index onto both bounded deques.
`none` models an out-of-range index error. -/
def play_current_track (s : PlayerState) : Option PlayerState :=
  match s.music_embeddings[s.current_track_index]?, s.playlist_paths[s.current_track_index]? with
  | some v, some p =>
      some { s with
        is_playing := true
        current_embedding := some v
        audio_calls := s.audio_calls ++ [AudioCall.load p, AudioCall.play]
        history := dequeAppend s.cap s.history s.current_track_index
        recently_played := dequeAppend s.cap s.recently_played s.current_track_index }
  | _, _ => none

/-- `MusicPlayer.toggle_play_pause`; `busy` is the external
`pygame.mixer.music.get_busy()` answer. -/
def toggle_play_pause (busy : Bool) (s : PlayerState) : Option PlayerState :=
  if !s.is_playing then
    let s1 := { s with is_playing := true }
    if !busy then play_current_track s1
    else some { s1 with audio_calls := s1.audio_calls ++ [AudioCall.unpause] }
  else
    some { s with
      is_playing := false
      audio_calls := s.audio_calls ++ [AudioCall.pause] }

/-- `MusicPlayer.like_song`: force-refill the pending queue from the current
embedding; a no-op when nothing has been played yet. -/
def like_song (s : PlayerState) : Option PlayerState :=
  match s.current_embedding with
  | some q =>
      some { s with
        next_tracks_indices :=
          find_nearest_embeddings s.music_embeddings q s.recently_played 17 }
  | none => some s

/-- The body of `MusicPlayer.next_track` up to (excluding) the final
`if self.is_playing` block.  `r` is the value `random.randint(0, n - 1)`
would produce on the random path.  In the similar branch: refill the queue
when empty, check the single head candidate against the `0.26` threshold
(skipping it once if it is a near-duplicate), then pop the head as the new
current track.  `none` models the `IndexError` of indexing an exhausted
queue. -/
def next_track_core (similar : Bool) (r : ℕ) (s : PlayerState) : Option PlayerState :=
  match similar, s.current_embedding with
  | true, some q =>
      let s' :=
        if s.next_tracks_indices.isEmpty then
          { s with next_tracks_indices :=
              find_nearest_embeddings s.music_embeddings q s.recently_played 17 }
        else s
      match s'.next_tracks_indices.head?, s'.music_embeddings[s'.current_track_index]? with
      | some h, some vc =>
        match s'.music_embeddings[h]? with
        | some vh =>
          let s2 :=
            if dist2 vc vh < thr2 then
              { s' with
                recently_played := dequeAppend s'.cap s'.recently_played h
                next_tracks_indices := s'.next_tracks_indices.tail }
            else s'
          match s2.next_tracks_indices.head? with
          | some h2 =>
            match s2.music_embeddings[h2]? with
            | some v2 =>
                some { s2 with
                  current_track_index := h2
                  next_tracks_indices := s2.next_tracks_indices.tail
                  current_embedding := some v2 }
            | none => none
          | none => none
        | none => none
      | _, _ => none
  | _, _ =>
      match s.music_embeddings[r]? with
      | some v =>
          some { s with
            current_track_index := r
            current_embedding := some v
            recently_played := []
            next_tracks_indices := [] }
      | none => none

/-- `MusicPlayer.next_track`: the core selection followed by the trailing
`if self.is_playing: self.play_current_track()`. -/
def next_track (similar : Bool) (r : ℕ) (s : PlayerState) : Option PlayerState :=
  (next_track_core similar r s).bind
    (fun s1 => if s1.is_playing then play_current_track s1 else some s1)

/-- The body of `MusicPlayer.previous_track` before the trailing play block:
with more than one history entry, pop the current entry and then pop the one
beneath it as the new current; otherwise fall back to
`(current_index - 1) % n` (Python `%`, i.e. `Int.emod`). -/
def previous_track_core (s : PlayerState) : PlayerState :=
  if 1 < s.history.length then
    { s with
      current_track_index := s.history.dropLast.getLastD 0
      history := s.history.dropLast.dropLast }
  else
    { s with
      current_track_index :=
        (((s.current_track_index : ℤ) - 1).emod (s.playlist_paths.length : ℤ)).toNat }

/-- `MusicPlayer.previous_track`: the fallback/pop step followed by the
trailing `if self.is_playing: self.play_current_track()`. -/
def previous_track (s : PlayerState) : Option PlayerState :=
  if (previous_track_core s).is_playing then play_current_track (previous_track_core s)
  else some (previous_track_core s)

/-- `MusicPlayer.shuffle_playlist`; `l` is the permutation of
`list(zip(self.playlist_paths, self.music_embeddings))` that
`random.shuffle` produced.  Unzips it back into the parallel arrays and
clears `recently_played` (and nothing else).  `none` covers the inputs
`random.shuffle` cannot produce, and the `ValueError` of unzipping an empty
list. -/
def shuffle_playlist (l : List (String × List ℚ)) (s : PlayerState) : Option PlayerState :=
  if l ≠ [] ∧ l.Perm (s.playlist_paths.zip s.music_embeddings) then
    some { s with
      playlist_paths := l.map Prod.fst
      music_embeddings := l.map Prod.snd
      recently_played := [] }
  else none

/-- `MusicPlayer.play_song_by_index`: validate the (possibly negative) index;
on success reset the pending queue and the recently-played deque, make it
current and play it; otherwise report and leave the state untouched. -/
def play_song_by_index (i : ℤ) (s : PlayerState) : Option PlayerState :=
  if 0 ≤ i ∧ i < (s.playlist_paths.length : ℤ) then
    play_current_track
      { s with
        current_track_index := i.toNat
        next_tracks_indices := []
        recently_played := [] }
  else some s

/-! ## Operation sequences (for the recency-bound invariant) -/

/-- One user/controller action on the session, with all external
nondeterminism (random draws, mixer busy flag, shuffle outcome) supplied as
data. -/
inductive Op where
  | toggle (busy : Bool)
  | like
  | next (similar : Bool) (r : ℕ)
  | prev
  | select (i : ℤ)
  | shuffle (l : List (String × List ℚ))

/-- Dispatch one operation. -/
def step (s : PlayerState) : Op → Option PlayerState
  | Op.toggle busy => toggle_play_pause busy s
  | Op.like => like_song s
  | Op.next similar r => next_track similar r s
  | Op.prev => previous_track s
  | Op.select i => play_song_by_index i s
  | Op.shuffle l => shuffle_playlist l s

/-- Run a sequence of operations, stopping at the first failure. -/
def runOps : PlayerState → List Op → Option PlayerState
  | s, [] => some s
  | s, op :: ops =>
    match step s op with
    | some s' => runOps s' ops
    | none => none

/-- The session invariant: parallel non-empty arrays, the deque capacity
fixed at `|playlist| - 1`, and both deques within capacity. -/
def Inv (s : PlayerState) : Prop :=
  s.playlist_paths.length = s.music_embeddings.length ∧
  1 ≤ s.playlist_paths.length ∧
  s.cap = s.playlist_paths.length - 1 ∧
  s.history.length ≤ s.cap ∧
  s.recently_played.length ≤ s.cap

/-! ## Concrete states used in the witnesses and counterexamples -/

/-- A small two-track session that is not playing, with a pending queue and a
non-empty recently-played deque. -/
def queuedState : PlayerState where
  playlist_paths := ["a", "b"]
  music_embeddings := [[0], [1]]
  current_embedding := some [0]
  current_track_index := 0
  next_tracks_indices := [1]
  is_playing := false
  history := []
  recently_played := [0]
  cap := 1
  audio_calls := []

/-- `queuedState` after the reversing shuffle. -/
def shuffledState : PlayerState := { queuedState with
  playlist_paths := ["b", "a"]
  music_embeddings := [[1], [0]]
  recently_played := [] }

/-- A four-track session in which the two queued candidates are both within
the near-duplicate threshold of the current track: the squared distances from
the current vector `[0]` to `[1/10]` and `[1/5]` are `1/100` and `1/25`, both
below `thr2 = 169/2500`. -/
def dupState : PlayerState where
  playlist_paths := ["a", "b", "c", "d"]
  music_embeddings := [[0], [1/10], [1/5], [5]]
  current_embedding := some [0]
  current_track_index := 0
  next_tracks_indices := [1, 2]
  is_playing := false
  history := []
  recently_played := []
  cap := 3
  audio_calls := []

/-- A session in which no track has ever been played
(`current_embedding = none`) but stale queue/recency entries exist. -/
def fbState : PlayerState where
  playlist_paths := ["a", "b"]
  music_embeddings := [[0], [1]]
  current_embedding := none
  current_track_index := 0
  next_tracks_indices := [1]
  is_playing := false
  history := []
  recently_played := [1]
  cap := 1
  audio_calls := []

/-- Result of `previous_track` on `queuedState` (fallback path:
`(0 - 1) % 2 = 1`). -/
def prevResult : PlayerState := { queuedState with current_track_index := 1 }

/-! ## Helper lemmas -/

/-- A deque append never exceeds the capacity. -/
theorem dequeAppend_length_le (c : ℕ) (l : List ℕ) (x : ℕ) :
    (dequeAppend c l x).length ≤ c := by
  unfold dequeAppend
  rw [List.length_drop, List.length_append]
  simp only [List.length_cons, List.length_nil]
  omega

/-- With positive capacity, a deque append keeps the appended element at the
right end. -/
theorem dequeAppend_ends (c : ℕ) (l : List ℕ) (x : ℕ) (hc : 1 ≤ c) :
    ∃ t, dequeAppend c l x = t ++ [x] := by
  refine ⟨l.drop ((l ++ [x]).length - c), ?_⟩
  unfold dequeAppend
  rw [List.drop_append_of_le_length]
  rw [List.length_append]
  simp only [List.length_cons, List.length_nil]
  omega

/-- With capacity at least two, two successive deque appends keep both
elements, in order, at the right end. -/
theorem dequeAppend_ends_two (c : ℕ) (l : List ℕ) (x y : ℕ) (hc : 2 ≤ c) :
    ∃ t, dequeAppend c (dequeAppend c l x) y = t ++ [x, y] := by
  obtain ⟨t, ht⟩ := dequeAppend_ends c l x (by omega)
  rw [ht]
  refine ⟨t.drop ((t ++ [x] ++ [y]).length - c), ?_⟩
  unfold dequeAppend
  have hx : t ++ [x] ++ [y] = t ++ [x, y] := by simp
  rw [hx, List.drop_append_of_le_length]
  rw [← hx, List.length_append, List.length_append]
  simp only [List.length_cons, List.length_nil]
  omega

/-- Full characterisation of a successful `play_current_track`. -/
theorem play_current_track_spec (s s' : PlayerState)
    (h : play_current_track s = some s') :
    s'.current_track_index = s.current_track_index ∧
    s'.playlist_paths = s.playlist_paths ∧
    s'.music_embeddings = s.music_embeddings ∧
    s'.cap = s.cap ∧
    s'.is_playing = true ∧
    s'.next_tracks_indices = s.next_tracks_indices ∧
    s'.history = dequeAppend s.cap s.history s.current_track_index ∧
    s'.recently_played = dequeAppend s.cap s.recently_played s.current_track_index ∧
    ∃ p, s.playlist_paths[s.current_track_index]? = some p ∧
      s'.audio_calls = s.audio_calls ++ [AudioCall.load p, AudioCall.play] := by
  unfold play_current_track at h
  split at h
  case _ v p hv hp =>
    cases h
    refine ⟨rfl, rfl, rfl, rfl, rfl, rfl, rfl, rfl, p, hp, rfl⟩
  case _ =>
    cases h

/-- `play_current_track` succeeds whenever the current index is in range of
both parallel arrays. -/
theorem play_current_track_total (s : PlayerState)
    (hp : s.current_track_index < s.playlist_paths.length)
    (he : s.current_track_index < s.music_embeddings.length) :
    ∃ s', play_current_track s = some s' := by
  unfold play_current_track
  rw [List.getElem?_eq_getElem he, List.getElem?_eq_getElem hp]
  exact ⟨_, rfl⟩

/-- Characterisation of a successful `shuffle_playlist`. -/
theorem shuffle_playlist_spec (l : List (String × List ℚ)) (s s' : PlayerState)
    (h : shuffle_playlist l s = some s') :
    l ≠ [] ∧ l.Perm (s.playlist_paths.zip s.music_embeddings) ∧
    s' = { s with
      playlist_paths := l.map Prod.fst
      music_embeddings := l.map Prod.snd
      recently_played := [] } := by
  unfold shuffle_playlist at h
  split at h
  case isTrue hc =>
    cases h
    exact ⟨hc.1, hc.2, rfl⟩
  case isFalse =>
    cases h

/-! ## C3: state cleared by shuffle -/

/-- C3, counterexample: after `shuffle_playlist` on a state with pending
queue `[1]`, the recently-played deque is cleared but the pending queue is
still `[1]`, not empty — refuting the claim that shuffle empties both. -/
theorem c3_counterexample :
    (shuffle_playlist [("b", [1]), ("a", [0])] queuedState).map
      PlayerState.next_tracks_indices = some [1] ∧
    (shuffle_playlist [("b", [1]), ("a", [0])] queuedState).map
      PlayerState.recently_played = some [] := by
  decide

/-- C3, amended: after every successful invocation of the shuffle operation
the recently-played set is empty, while the pending queue of similar-track
indices is left unchanged (it is not cleared). -/
theorem c3_shuffle_amended (l : List (String × List ℚ)) (s s' : PlayerState)
    (h : shuffle_playlist l s = some s') :
    s'.recently_played = [] ∧ s'.next_tracks_indices = s.next_tracks_indices := by
  obtain ⟨-, -, rfl⟩ := shuffle_playlist_spec l s s' h
  exact ⟨rfl, rfl⟩

/-- C3, witness for the amended theorem at a concrete shuffle. -/
theorem c3_shuffle_amended_witness :
    shuffledState.recently_played = [] ∧
    shuffledState.next_tracks_indices = queuedState.next_tracks_indices :=
  c3_shuffle_amended [("b", [1]), ("a", [0])] queuedState shuffledState (by decide)

/-! ## C5: cache fingerprint sensitivity -/

/-- C5, counterexample: two files with the same name and byte length but
different content have the same cache key, and the modified file is
classified as cached (second component of the partition — the files to be
re-embedded — is empty), so changing content does not force recomputation. -/
theorem c5_counterexample :
    (AudioFile.mk "song.mp3" [0, 1]).content ≠ (AudioFile.mk "song.mp3" [2, 3]).content ∧
    cacheKey (AudioFile.mk "song.mp3" [0, 1]) = cacheKey (AudioFile.mk "song.mp3" [2, 3]) ∧
    (partitionFiles [cacheKey (AudioFile.mk "song.mp3" [0, 1])]
        [AudioFile.mk "song.mp3" [2, 3]]).2 = [] := by
  decide

/-- C5, amended: the fingerprint is a function of the file name and byte
size only — it is stable across runs for unchanged files, but any two files
agreeing on name and byte length share a fingerprint and hit the same cache
record, so a content change that preserves the byte length does not force
recomputation. -/
theorem c5_fingerprint_amended (f g : AudioFile)
    (hn : f.name = g.name) (hs : fileSize f = fileSize g) :
    cacheKey f = cacheKey g ∧
    ∀ cache : List String, isCached cache f = isCached cache g := by
  have hk : cacheKey f = cacheKey g := by
    unfold cacheKey
    rw [hn, hs]
  exact ⟨hk, fun cache => by unfold isCached; rw [hk]⟩

/-- C5, witness for the amended theorem at two concrete files. -/
theorem c5_fingerprint_amended_witness :
    cacheKey (AudioFile.mk "track.mp3" [7, 7]) = cacheKey (AudioFile.mk "track.mp3" [8, 9]) :=
  (c5_fingerprint_amended (AudioFile.mk "track.mp3" [7, 7])
    (AudioFile.mk "track.mp3" [8, 9]) rfl rfl).1

/-! ## C9: shuffle is a permutation applied to both parallel arrays -/

/-- C9, confirmed: a successful shuffle leaves the multiset of
(path, vector) pairs unchanged and keeps the two arrays parallel (they
receive the same permutation, being unzipped from one shuffled list of
pairs). -/
theorem c9_shuffle_permutation (l : List (String × List ℚ)) (s s' : PlayerState)
    (h : shuffle_playlist l s = some s') :
    (s'.playlist_paths.zip s'.music_embeddings).Perm
      (s.playlist_paths.zip s.music_embeddings) ∧
    s'.playlist_paths.length = s'.music_embeddings.length := by
  obtain ⟨-, hperm, rfl⟩ := shuffle_playlist_spec l s s' h
  constructor
  · have hzip : (l.map Prod.fst).zip (l.map Prod.snd) = l := by
      have := List.zip_unzip l
      simpa [List.unzip_eq_map] using this
    simpa [hzip] using hperm
  · simp

/-- C9, witness at a concrete shuffle. -/
theorem c9_shuffle_permutation_witness :
    (shuffledState.playlist_paths.zip shuffledState.music_embeddings).Perm
      (queuedState.playlist_paths.zip queuedState.music_embeddings) :=
  (c9_shuffle_permutation [("b", [1]), ("a", [0])] queuedState shuffledState (by decide)).1

/-- Frame facts about the selection part of `next_track`: it never touches
the status, the audio log, the playlist arrays, the capacity or the history,
and it only clears the recently-played deque or appends one skipped
duplicate to it. -/
theorem next_track_core_frame (b : Bool) (r : ℕ) (s s1 : PlayerState)
    (h : next_track_core b r s = some s1) :
    s1.is_playing = s.is_playing ∧
    s1.audio_calls = s.audio_calls ∧
    s1.playlist_paths = s.playlist_paths ∧
    s1.music_embeddings = s.music_embeddings ∧
    s1.cap = s.cap ∧
    s1.history = s.history ∧
    (s1.recently_played = s.recently_played ∨ s1.recently_played = [] ∨
      ∃ hd, s1.recently_played = dequeAppend s.cap s.recently_played hd) := by
  unfold next_track_core at h
  split at h
  case h_2 =>
    split at h
    · cases h
      exact ⟨rfl, rfl, rfl, rfl, rfl, rfl, Or.inr (Or.inl rfl)⟩
    · cases h
  case h_1 q heq =>
    dsimp only at h
    split at h
    case h_2 => cases h
    case h_1 hd vc hhead hvc =>
      split at h
      case h_2 => cases h
      case h_1 vh hvh =>
        by_cases hdist : dist2 vc vh < thr2
        · rw [if_pos hdist] at h
          split at h
          · split at h
            · cases h
              refine ⟨?_, ?_, ?_, ?_, ?_, ?_, Or.inr (Or.inr ⟨hd, ?_⟩)⟩ <;>
                (try split) <;> rfl
            · cases h
          · cases h
        · rw [if_neg hdist] at h
          split at h
          · split at h
            · cases h
              refine ⟨?_, ?_, ?_, ?_, ?_, ?_, Or.inl ?_⟩ <;>
                (try split) <;> rfl
            · cases h
          · cases h

/-- The fallback part of `previous_track` only changes the current index and
the history. -/
theorem previous_track_core_frame (s : PlayerState) :
    (previous_track_core s).is_playing = s.is_playing ∧
    (previous_track_core s).audio_calls = s.audio_calls ∧
    (previous_track_core s).playlist_paths = s.playlist_paths ∧
    (previous_track_core s).music_embeddings = s.music_embeddings ∧
    (previous_track_core s).cap = s.cap ∧
    (previous_track_core s).next_tracks_indices = s.next_tracks_indices ∧
    (previous_track_core s).recently_played = s.recently_played ∧
    (previous_track_core s).history.length ≤ s.history.length := by
  unfold previous_track_core
  split
  · refine ⟨rfl, rfl, rfl, rfl, rfl, rfl, rfl, ?_⟩
    simp only [List.length_dropLast]
    omega
  · exact ⟨rfl, rfl, rfl, rfl, rfl, rfl, rfl, le_refl _⟩

/-- The random branch of the `next_track` selection: taken when
`similar = false` or when nothing has been played yet. -/
theorem next_track_core_random (b : Bool) (r : ℕ) (s : PlayerState)
    (hb : b = false ∨ s.current_embedding = none)
    (hr : r < s.music_embeddings.length) :
    next_track_core b r s = some { s with
      current_track_index := r
      current_embedding := some s.music_embeddings[r]
      recently_played := []
      next_tracks_indices := [] } := by
  have hget : s.music_embeddings[r]? = some s.music_embeddings[r] :=
    List.getElem?_eq_getElem hr
  rcases hb with hb | hb
  · subst hb
    cases he : s.current_embedding <;>
      · unfold next_track_core
        rw [he, hget]
  · cases b <;>
      · unfold next_track_core
        rw [hb, hget]

/-- The selection part of `next_track` always establishes a coherent
selection: on success the cached `current_embedding` is exactly the stored
vector at the newly selected `current_track_index`. -/
theorem next_track_core_selects (b : Bool) (r : ℕ) (s s1 : PlayerState)
    (h : next_track_core b r s = some s1) :
    ∃ v, s1.music_embeddings[s1.current_track_index]? = some v ∧
      s1.current_embedding = some v := by
  unfold next_track_core at h
  split at h
  case h_2 =>
    split at h
    · rename_i v hv
      cases h
      exact ⟨v, hv, rfl⟩
    · cases h
  case h_1 q heq =>
    dsimp only at h
    split at h
    case h_2 => cases h
    case h_1 hd vc hhead hvc =>
      split at h
      case h_2 => cases h
      case h_1 vh hvh =>
        by_cases hdist : dist2 vc vh < thr2
        · rw [if_pos hdist] at h
          split at h
          · split at h
            · rename_i v2 hv2
              cases h
              exact ⟨v2, hv2, rfl⟩
            · cases h
          · cases h
        · rw [if_neg hdist] at h
          split at h
          · split at h
            · rename_i v2 hv2
              cases h
              exact ⟨v2, hv2, rfl⟩
            · cases h
          · cases h

/-! ## C4: navigation is silent unless playing; select always plays -/

/-- C4, counterexample: on a non-playing session, `play_song_by_index 0`
immediately issues `load`+`play` to the audio backend (and flips the status
to playing), refuting the claim that select starts playback only if the
session was already playing. -/
theorem c4_counterexample :
    queuedState.is_playing = false ∧
    (play_song_by_index 0 queuedState).map PlayerState.audio_calls =
      some [AudioCall.load "a", AudioCall.play] := by
  decide

/-- C4, amended: when the session is not playing, next (random or similar)
and previous are pure selection updates — they equal their selection cores,
issue no audio-backend call and leave the status unchanged, while updating
the underlying selection state: next leaves `current_track_index` pointing
at the newly selected track with its vector cached in `current_embedding`
(for random next, exactly the supplied random index, with queue and recency
cleared), and previous selects the entry beneath the top of the history or
`(current_index - 1) % n`.  `play_song_by_index` with a valid index,
however, always issues `load`+`play` and sets the status to Playing,
regardless of the prior status. -/
theorem c4_navigation_frame :
    (∀ (s : PlayerState) (b : Bool) (r : ℕ),
      s.is_playing = false → next_track b r s = next_track_core b r s) ∧
    (∀ (s : PlayerState) (b : Bool) (r : ℕ) (s' : PlayerState),
      s.is_playing = false → next_track b r s = some s' →
      s'.audio_calls = s.audio_calls ∧ s'.is_playing = false ∧
      ∃ v, s'.music_embeddings[s'.current_track_index]? = some v ∧
        s'.current_embedding = some v) ∧
    (∀ (s : PlayerState) (r : ℕ) (s' : PlayerState),
      s.is_playing = false → next_track false r s = some s' →
      s'.current_track_index = r ∧ s'.next_tracks_indices = [] ∧
      s'.recently_played = []) ∧
    (∀ (s s' : PlayerState),
      s.is_playing = false → previous_track s = some s' →
      s'.audio_calls = s.audio_calls ∧ s'.is_playing = false ∧
      (1 < s.history.length →
        s'.current_track_index = s.history.dropLast.getLastD 0) ∧
      (s.history.length ≤ 1 →
        s'.current_track_index =
          (((s.current_track_index : ℤ) - 1).emod (s.playlist_paths.length : ℤ)).toNat)) ∧
    (∀ (s : PlayerState) (i : ℤ) (s' : PlayerState),
      0 ≤ i → i < (s.playlist_paths.length : ℤ) →
      play_song_by_index i s = some s' →
      s'.is_playing = true ∧
      ∃ p, s'.audio_calls = s.audio_calls ++ [AudioCall.load p, AudioCall.play]) := by
  refine ⟨?_, ?_, ?_, ?_, ?_⟩
  · intro s b r hnp
    unfold next_track
    cases hc : next_track_core b r s with
    | none => rfl
    | some s1 =>
      have hne : ¬ s1.is_playing = true := by
        rw [(next_track_core_frame b r s s1 hc).1, hnp]
        exact Bool.false_ne_true
      rw [Option.some_bind, if_neg hne]
  · intro s b r s' hnp h
    unfold next_track at h
    obtain ⟨s1, hs1, hw⟩ := Option.bind_eq_some.mp h
    obtain ⟨hp, ha, -, -, -, -, -⟩ := next_track_core_frame b r s s1 hs1
    rw [hp, hnp] at hw
    simp only [Bool.false_eq_true, if_false] at hw
    have hsel := next_track_core_selects b r s s1 hs1
    cases hw
    exact ⟨ha, hp.trans hnp, hsel⟩
  · intro s r s' hnp h
    unfold next_track at h
    obtain ⟨s1, hs1, hw⟩ := Option.bind_eq_some.mp h
    obtain ⟨hp, -, -, -, -, -, -⟩ := next_track_core_frame false r s s1 hs1
    rw [hp, hnp] at hw
    simp only [Bool.false_eq_true, if_false] at hw
    cases hw
    have hr : r < s.music_embeddings.length := by
      by_contra hge
      have hnone : next_track_core false r s = none := by
        have hg : s.music_embeddings[r]? = none := List.getElem?_eq_none (by omega)
        cases he : s.current_embedding <;>
          · unfold next_track_core
            rw [he, hg]
      rw [hnone] at hs1
      cases hs1
    rw [next_track_core_random false r s (Or.inl rfl) hr] at hs1
    cases hs1
    exact ⟨rfl, rfl, rfl⟩
  · intro s s' hnp h
    unfold previous_track at h
    obtain ⟨hp, ha, -, -, -, -, -, -⟩ := previous_track_core_frame s
    rw [hp, hnp] at h
    simp only [Bool.false_eq_true, if_false] at h
    cases h
    refine ⟨ha, hp.trans hnp, ?_, ?_⟩
    · intro hlen
      unfold previous_track_core
      rw [if_pos hlen]
    · intro hlen
      unfold previous_track_core
      rw [if_neg (by omega)]
  · intro s i s' h0 hlen h
    unfold play_song_by_index at h
    rw [if_pos ⟨h0, hlen⟩] at h
    obtain ⟨-, -, -, -, hplay, -, -, -, p, -, haud⟩ :=
      play_current_track_spec _ s' h
    exact ⟨hplay, p, haud⟩

/-- C4, witness for the amended theorem: a silent previous on a non-playing
session, which falls back to selecting `(0 - 1) % 2 = 1`. -/
theorem c4_navigation_frame_witness :
    prevResult.audio_calls = queuedState.audio_calls ∧
    prevResult.is_playing = false ∧
    prevResult.current_track_index =
      (((queuedState.current_track_index : ℤ) - 1).emod
        (queuedState.playlist_paths.length : ℤ)).toNat :=
  ⟨(c4_navigation_frame.2.2.2.1 queuedState prevResult rfl (by decide)).1,
   (c4_navigation_frame.2.2.2.1 queuedState prevResult rfl (by decide)).2.1,
   (c4_navigation_frame.2.2.2.1 queuedState prevResult rfl (by decide)).2.2.2
     (by decide)⟩

/-! ## C6: select-by-index validation -/

/-- C6, confirmed: an out-of-range (including negative) index leaves the
whole session state unchanged, while a valid index resets the pending queue
and the recently-played deque, makes the index current and plays it (the
play step then pushes the new current index onto the just-cleared deques). -/
theorem c6_select_by_index (s : PlayerState) (i : ℤ) :
    (¬(0 ≤ i ∧ i < (s.playlist_paths.length : ℤ)) →
      play_song_by_index i s = some s) ∧
    ((0 ≤ i ∧ i < (s.playlist_paths.length : ℤ)) →
      s.playlist_paths.length = s.music_embeddings.length →
      ∃ s', play_song_by_index i s = some s' ∧
        s'.current_track_index = i.toNat ∧
        s'.next_tracks_indices = [] ∧
        s'.recently_played = dequeAppend s.cap [] i.toNat ∧
        s'.history = dequeAppend s.cap s.history i.toNat ∧
        s'.is_playing = true ∧
        s'.playlist_paths = s.playlist_paths) := by
  constructor
  · intro hc
    unfold play_song_by_index
    rw [if_neg hc]
  · intro hc hpar
    unfold play_song_by_index
    rw [if_pos hc]
    obtain ⟨s', hs'⟩ := play_current_track_total
      { s with current_track_index := i.toNat
               next_tracks_indices := []
               recently_played := [] }
      (by simp only []; omega) (by simp only []; omega)
    obtain ⟨hcur, hpaths, -, -, hplay, hnext, hhist, hrec, -⟩ :=
      play_current_track_spec _ s' hs'
    exact ⟨s', hs', hcur, hnext, hrec, hhist, hplay, hpaths⟩

/-- C6, witness: an invalid (negative) index is a strict no-op. -/
theorem c6_select_by_index_witness :
    play_song_by_index (-1) queuedState = some queuedState :=
  (c6_select_by_index queuedState (-1)).1 (by decide)

/-! ## C10: "next similar" with no current track falls back to random -/

/-- C10, confirmed: with `current_embedding` unset, "next similar" behaves
exactly like "next random": it succeeds (does not fail), selects the given
random index over the whole store, empties the pending queue and clears the
recently-played deque (the subsequent play step, taken only when the session
is playing, then pushes the newly selected index onto the cleared deque). -/
theorem c10_similar_fallback (s : PlayerState) (r : ℕ)
    (hnone : s.current_embedding = none)
    (hr : r < s.playlist_paths.length)
    (hpar : s.playlist_paths.length = s.music_embeddings.length) :
    next_track true r s = next_track false r s ∧
    ∃ s', next_track true r s = some s' ∧
      s'.current_track_index = r ∧
      s'.next_tracks_indices = [] ∧
      s'.recently_played = (if s.is_playing then dequeAppend s.cap [] r else []) := by
  have hre : r < s.music_embeddings.length := by omega
  have htrue := next_track_core_random true r s (Or.inr hnone) hre
  have hfalse := next_track_core_random false r s (Or.inl rfl) hre
  constructor
  · unfold next_track
    rw [htrue, hfalse]
  · unfold next_track
    rw [htrue, Option.some_bind]
    by_cases hp : s.is_playing = true
    · rw [if_pos hp]
      obtain ⟨s', hs'⟩ := play_current_track_total
        { s with current_track_index := r
                 current_embedding := some s.music_embeddings[r]
                 recently_played := []
                 next_tracks_indices := [] }
        (by simp only []; omega) (by simp only []; omega)
      obtain ⟨hcur, -, -, -, -, hnext, -, hrec, -⟩ :=
        play_current_track_spec _ s' hs'
      refine ⟨s', hs', hcur, hnext, ?_⟩
      rw [if_pos hp, hrec]
    · rw [if_neg hp]
      refine ⟨_, rfl, rfl, rfl, ?_⟩
      rw [if_neg hp]

/-- C10, witness at a concrete never-played session. -/
theorem c10_similar_fallback_witness :
    next_track true 1 fbState = next_track false 1 fbState :=
  (c10_similar_fallback fbState 1 rfl (by decide) (by decide)).1

/-! ## C2: near-duplicate suppression -/

/-- Exact behaviour of the "next similar" selection when the pending queue
already holds at least two candidates: the duplicate check is applied to the
head only, once; whatever follows is selected without any further check. -/
theorem next_track_core_similar (r : ℕ) (s : PlayerState) (q vc v1 v2 : List ℚ)
    (h1 h2 : ℕ) (rest : List ℕ)
    (hemb : s.current_embedding = some q)
    (hq : s.next_tracks_indices = h1 :: h2 :: rest)
    (hvc : s.music_embeddings[s.current_track_index]? = some vc)
    (hv1 : s.music_embeddings[h1]? = some v1)
    (hv2 : s.music_embeddings[h2]? = some v2) :
    (dist2 vc v1 < thr2 →
      next_track_core true r s = some { s with
        current_track_index := h2
        next_tracks_indices := rest
        current_embedding := some v2
        recently_played := dequeAppend s.cap s.recently_played h1 }) ∧
    (¬ dist2 vc v1 < thr2 →
      next_track_core true r s = some { s with
        current_track_index := h1
        next_tracks_indices := h2 :: rest
        current_embedding := some v1 }) := by
  have hne : s.next_tracks_indices.isEmpty = false := by
    rw [hq]
    rfl
  constructor <;> intro hdist <;>
  · unfold next_track_core
    rw [hemb]
    dsimp only
    rw [hne]
    simp only [Bool.false_eq_true, if_false, hq, List.head?_cons, List.tail_cons, hvc, hv1]
    first
      | (rw [if_pos hdist]
         simp only [List.head?_cons, List.tail_cons, hv2])
      | (rw [if_neg hdist]
         simp only [hq, List.head?_cons, List.tail_cons, hvc, hv1])

/-- C2, counterexample: on `dupState` the pending queue is `[1, 2]` and both
candidates are within the `0.26` threshold of the current track `0`
(squared distances `1/100` and `1/25`, both below `thr2 = 169/2500`).  The
head `1` is skipped as a duplicate, but the selected track `2` is itself
within the threshold of the previously playing track — refuting the claim
that skipping repeats until a non-duplicate is selected. -/
theorem c2_counterexample :
    (next_track true 0 dupState).map PlayerState.current_track_index = some 2 ∧
    dist2 [0] [1/5] < thr2 := by
  constructor
  · have h := (next_track_core_similar 0 dupState [0] [0] [1/10] [1/5] 1 2 []
      rfl rfl rfl rfl rfl).1 (by norm_num [dist2, thr2])
    unfold next_track
    rw [h, Option.some_bind, if_neg]
    · rfl
    · intro hcon
      exact Bool.false_ne_true hcon
  · norm_num [dist2, thr2]

/-- C2, amended: when "next similar" finds the queue head within the `0.26`
threshold of the currently playing track, that head is marked
recently-played and skipped — but the check is performed only once per
invocation: the immediately following candidate is selected without a
further distance check, so the track actually selected can still be within
the threshold of the previously playing track. -/
theorem c2_duplicate_skip (r : ℕ) (s : PlayerState) (q vc v1 v2 : List ℚ)
    (h1 h2 : ℕ) (rest : List ℕ)
    (hemb : s.current_embedding = some q)
    (hq : s.next_tracks_indices = h1 :: h2 :: rest)
    (hvc : s.music_embeddings[s.current_track_index]? = some vc)
    (hv1 : s.music_embeddings[h1]? = some v1)
    (hv2 : s.music_embeddings[h2]? = some v2)
    (hnp : s.is_playing = false) :
    (dist2 vc v1 < thr2 →
      next_track true r s = some { s with
        current_track_index := h2
        next_tracks_indices := rest
        current_embedding := some v2
        recently_played := dequeAppend s.cap s.recently_played h1 }) ∧
    (¬ dist2 vc v1 < thr2 →
      next_track true r s = some { s with
        current_track_index := h1
        next_tracks_indices := h2 :: rest
        current_embedding := some v1 }) := by
  obtain ⟨hskip, hkeep⟩ :=
    next_track_core_similar r s q vc v1 v2 h1 h2 rest hemb hq hvc hv1 hv2
  constructor <;> intro hdist
  · unfold next_track
    rw [hskip hdist, Option.some_bind, if_neg]
    intro hcon
    rw [show ({ s with
        current_track_index := h2
        next_tracks_indices := rest
        current_embedding := some v2
        recently_played := dequeAppend s.cap s.recently_played h1 } :
          PlayerState).is_playing = s.is_playing from rfl, hnp] at hcon
    exact Bool.false_ne_true hcon
  · unfold next_track
    rw [hkeep hdist, Option.some_bind, if_neg]
    intro hcon
    rw [show ({ s with
        current_track_index := h1
        next_tracks_indices := h2 :: rest
        current_embedding := some v1 } :
          PlayerState).is_playing = s.is_playing from rfl, hnp] at hcon
    exact Bool.false_ne_true hcon

/-- C2, witness for the amended theorem: the single skip on `dupState`. -/
theorem c2_duplicate_skip_witness :
    next_track true 0 dupState = some { dupState with
      current_track_index := 2
      next_tracks_indices := []
      current_embedding := some [1/5]
      recently_played := dequeAppend dupState.cap dupState.recently_played 1 } :=
  (c2_duplicate_skip 0 dupState [0] [0] [1/10] [1/5] 1 2 []
    rfl rfl rfl rfl rfl rfl).1 (by norm_num [dist2, thr2])

/-! ## C1: nearest-neighbour query -/

/-- Setting excluded entries to `+∞` preserves the length of the distance
array. -/
theorem excludeDistances_length (ds : List (WithTop ℚ)) (excl : List ℕ) :
    (excludeDistances ds excl).length = ds.length := by
  induction excl generalizing ds with
  | nil => rfl
  | cons e es ih =>
    show (excludeDistances (ds.set e ⊤) es).length = ds.length
    rw [ih (ds.set e ⊤), List.length_set]

/-- Entry-wise description of the exclusion pass: an in-range excluded index
holds `+∞`, every other in-range index keeps its distance. -/
theorem excludeDistances_getElem? (ds : List (WithTop ℚ)) (excl : List ℕ) (i : ℕ)
    (hi : i < ds.length) :
    (excludeDistances ds excl)[i]? = if i ∈ excl then some ⊤ else ds[i]? := by
  induction excl generalizing ds with
  | nil => simp [excludeDistances]
  | cons e es ih =>
    show (excludeDistances (ds.set e ⊤) es)[i]? = _
    rw [ih (ds.set e ⊤) (by rw [List.length_set]; exact hi)]
    by_cases hes : i ∈ es
    · rw [if_pos hes, if_pos (List.mem_cons_of_mem e hes)]
    · rw [if_neg hes]
      by_cases hie : i = e
      · subst hie
        rw [if_pos (List.mem_cons_self i es), List.getElem?_set_self hi]
      · rw [List.getElem?_set_ne (fun hcon => hie hcon.symm),
          if_neg (by simp [List.mem_cons, hie, hes])]

/-- `pairLE` orders pairs by their distance component first. -/
theorem pairLE_snd_le (a b : ℕ × WithTop ℚ) (h : pairLE a b) : a.2 ≤ b.2 := by
  rcases h with h | ⟨h, -⟩
  · exact le_of_lt h
  · exact le_of_eq h

/-- C1, counterexample: with two stored vectors, query `[0]`, exclusion set
`{1}` and `k = 2` there is only one non-excluded candidate, yet the query
returns two indices and the second one is the excluded index `1` — refuting
both "never returns an index in the exclusion set" and "returns exactly the
non-excluded ones when fewer than k exist". -/
theorem c1_counterexample :
    find_nearest_embeddings [[0], [1]] [0] [1] 2 = [0, 1] ∧ (1 : ℕ) ∈ [1] := by
  constructor
  · norm_num [find_nearest_embeddings, argsort, excludeDistances, dist2,
      List.insertionSort, List.orderedInsert, pairLE, List.enum, List.enumFrom,
      List.set, WithTop.coe_lt_top]
  · exact List.mem_singleton.mpr rfl

/-- C1, amended: the query returns `min k n` indices (not fewer), sorted
ascending by the modified distance in which excluded indices count as `+∞`;
the returned indices are distinct, in range, and no unreturned index beats a
returned one.  Consequently the `k` nearest non-excluded candidates come
first, but when fewer than `k` non-excluded candidates exist the result is
padded with excluded indices (an excluded index is returned only once every
non-excluded index is) instead of being truncated to the non-excluded
ones. -/
theorem c1_nearest_amended (embs : List (List ℚ)) (q : List ℚ) (excl : List ℕ) (k : ℕ) :
    (find_nearest_embeddings embs q excl k).length = min k embs.length ∧
    (find_nearest_embeddings embs q excl k).Nodup ∧
    (∀ i ∈ find_nearest_embeddings embs q excl k, i < embs.length) ∧
    List.Pairwise (fun i j => modDist embs q excl i ≤ modDist embs q excl j)
      (find_nearest_embeddings embs q excl k) ∧
    (∀ j, j < embs.length → j ∉ find_nearest_embeddings embs q excl k →
      ∀ i ∈ find_nearest_embeddings embs q excl k,
        modDist embs q excl i ≤ modDist embs q excl j) ∧
    (∀ i ∈ find_nearest_embeddings embs q excl k, i ∈ excl →
      ∀ j, j < embs.length → j ∉ excl → j ∈ find_nearest_embeddings embs q excl k) := by
  classical
  set ds : List (WithTop ℚ) := embs.map (fun v => ((dist2 v q : ℚ) : WithTop ℚ)) with hds
  set eds : List (WithTop ℚ) := excludeDistances ds excl with heds
  have hlen : eds.length = embs.length := by
    rw [heds, excludeDistances_length, hds, List.length_map]
  set S : List (ℕ × WithTop ℚ) := List.insertionSort pairLE eds.enum with hS
  have hperm : S.Perm eds.enum := List.perm_insertionSort pairLE eds.enum
  have hsorted : List.Pairwise pairLE S := List.sorted_insertionSort pairLE eds.enum
  have hmodget : ∀ i, i < embs.length → eds[i]? = some (modDist embs q excl i) := by
    intro i hi
    rw [heds, excludeDistances_getElem? ds excl i (by rw [hds, List.length_map]; exact hi)]
    by_cases hex : i ∈ excl
    · rw [if_pos hex, modDist, if_pos hex]
    · rw [if_neg hex, modDist, if_neg hex, hds, List.getElem?_map,
        List.getElem?_eq_getElem hi, Option.map_some', List.getD_eq_getElem _ _ hi]
  have hmd : ∀ p ∈ S, p.1 < embs.length ∧ p.2 = modDist embs q excl p.1 := by
    intro p hp
    obtain ⟨i, x⟩ := p
    have hmem : (i, x) ∈ eds.enum := hperm.mem_iff.mp hp
    have hget : eds[i]? = some x := List.mk_mem_enum_iff_getElem?.mp hmem
    have hilt : i < embs.length := by
      rw [← hlen]
      rcases List.getElem?_eq_some_iff.mp hget with ⟨h1, -⟩
      exact h1
    exact ⟨hilt, Option.some.inj (hget.symm.trans (hmodget i hilt))⟩
  have hres : find_nearest_embeddings embs q excl k = (S.take k).map Prod.fst := by
    rw [find_nearest_embeddings, argsort, ← hds, ← heds, ← hS, List.map_take]
  have hfsts : (S.map Prod.fst).Perm (List.range embs.length) := by
    have h1 : (S.map Prod.fst).Perm (eds.enum.map Prod.fst) := hperm.map Prod.fst
    rw [List.enum_map_fst, hlen] at h1
    exact h1
  have hcomplete : ∀ j, j < embs.length → j ∉ find_nearest_embeddings embs q excl k →
      ∀ i ∈ find_nearest_embeddings embs q excl k,
        modDist embs q excl i ≤ modDist embs q excl j := by
    intro j hj hjn i hi
    have hpj : (j, modDist embs q excl j) ∈ S :=
      hperm.mem_iff.mpr (List.mk_mem_enum_iff_getElem?.mpr (hmodget j hj))
    have hpj' : (j, modDist embs q excl j) ∈ S.take k ++ S.drop k := by
      rw [List.take_append_drop]
      exact hpj
    have hpjd : (j, modDist embs q excl j) ∈ S.drop k := by
      rcases List.mem_append.mp hpj' with hco | hdr
      · exact absurd (by rw [hres]; exact List.mem_map_of_mem Prod.fst hco) hjn
      · exact hdr
    rw [hres] at hi
    obtain ⟨p, hp, rfl⟩ := List.mem_map.mp hi
    have hpair : List.Pairwise pairLE (S.take k ++ S.drop k) := by
      rw [List.take_append_drop]
      exact hsorted
    have hle := (List.pairwise_append.mp hpair).2.2 p hp _ hpjd
    have hmp := hmd p (List.mem_of_mem_take hp)
    rw [← hmp.2]
    exact pairLE_snd_le _ _ hle
  refine ⟨?_, ?_, ?_, ?_, hcomplete, ?_⟩
  · rw [hres, List.length_map, List.length_take]
    congr 1
    rw [hS, List.length_insertionSort, List.enum_length, hlen]
  · rw [hres, List.map_take]
    exact List.Nodup.sublist (List.take_sublist _ _)
      (hfsts.symm.nodup (List.nodup_range _))
  · intro i hi
    rw [hres] at hi
    obtain ⟨p, hp, rfl⟩ := List.mem_map.mp hi
    exact (hmd p (List.mem_of_mem_take hp)).1
  · rw [hres, List.pairwise_map]
    refine (hsorted.sublist (List.take_sublist k S)).imp_of_mem ?_
    intro a b ha hb hab
    have hma := hmd a (List.mem_of_mem_take ha)
    have hmb := hmd b (List.mem_of_mem_take hb)
    rw [← hma.2, ← hmb.2]
    exact pairLE_snd_le a b hab
  · intro i hi hiex j hj hjex
    by_contra hjn
    have hle := hcomplete j hj hjn i hi
    rw [modDist, if_pos hiex, modDist, if_neg hjex] at hle
    exact WithTop.coe_ne_top (top_le_iff.mp hle)

/-- C1, witness for the amended theorem at a concrete store. -/
theorem c1_nearest_amended_witness :
    (find_nearest_embeddings [[0], [1]] [0] [] 1).length =
      min 1 ([[0], [1]] : List (List ℚ)).length :=
  (c1_nearest_amended [[0], [1]] [0] [] 1).1

/-! ## C8: previous via the history stack -/

/-- `previous_track` always reports the index computed by the fallback/pop
step (the trailing play step never changes the selection). -/
theorem previous_track_current (s s' : PlayerState)
    (h : previous_track s = some s') :
    s'.current_track_index = (previous_track_core s).current_track_index := by
  unfold previous_track at h
  split at h
  · exact (play_current_track_spec _ _ h).1
  · cases h
    rfl

/-- C8, confirmed: after playing track `A` and then track `B` (so the
history holds more than one entry), `previous` pops back to `A`, not `B`;
with at most one history entry it instead falls back to
`(current_index - 1) % n` with Python `%` semantics. -/
theorem c8_previous_track :
    (∀ (s : PlayerState) (A B : ℕ) (sA sB s' : PlayerState), 2 ≤ s.cap →
      play_current_track { s with current_track_index := A } = some sA →
      play_current_track { sA with current_track_index := B } = some sB →
      previous_track sB = some s' → s'.current_track_index = A) ∧
    (∀ (s s' : PlayerState), s.history.length ≤ 1 →
      previous_track s = some s' →
      s'.current_track_index =
        (((s.current_track_index : ℤ) - 1).emod (s.playlist_paths.length : ℤ)).toNat) := by
  constructor
  · intro s A B sA sB s' hcap hA hB hprev
    obtain ⟨-, -, -, hAcap, -, -, hAhist, -, -⟩ := play_current_track_spec _ sA hA
    obtain ⟨-, -, -, -, -, -, hBhist, -, -⟩ := play_current_track_spec _ sB hB
    have h1 : sA.history = dequeAppend s.cap s.history A := hAhist
    have h1c : sA.cap = s.cap := hAcap
    have h2 : sB.history = dequeAppend sA.cap sA.history B := hBhist
    have hist2 : sB.history = dequeAppend s.cap (dequeAppend s.cap s.history A) B := by
      rw [h2, h1, h1c]
    obtain ⟨t, ht⟩ := dequeAppend_ends_two s.cap s.history A B hcap
    have hhist : sB.history = t ++ [A, B] := hist2.trans ht
    rw [previous_track_current sB s' hprev]
    unfold previous_track_core
    rw [if_pos (by rw [hhist, List.length_append]; simp only [List.length_cons,
      List.length_nil]; omega)]
    dsimp only
    rw [hhist, show t ++ [A, B] = (t ++ [A]) ++ [B] by simp, List.dropLast_concat,
      List.getLastD_concat]
  · intro s s' hlen hprev
    rw [previous_track_current s s' hprev]
    unfold previous_track_core
    rw [if_neg (by omega)]

/-- C8, witness: the fallback path on a concrete one-entry history. -/
theorem c8_previous_track_witness :
    prevResult.current_track_index =
      (((queuedState.current_track_index : ℤ) - 1).emod
        (queuedState.playlist_paths.length : ℤ)).toNat :=
  c8_previous_track.2 queuedState prevResult (by decide) (by decide)

/-! ## C7: the recency bound invariant -/

/-- `play_current_track` preserves the session invariant. -/
theorem inv_play_current (s s' : PlayerState) (hInv : Inv s)
    (h : play_current_track s = some s') : Inv s' := by
  obtain ⟨-, hpaths, hembs, hcap, -, -, hhist, hrec, -⟩ :=
    play_current_track_spec s s' h
  unfold Inv at *
  rw [hpaths, hembs, hcap, hhist, hrec]
  exact ⟨hInv.1, hInv.2.1, hInv.2.2.1, dequeAppend_length_le _ _ _,
    dequeAppend_length_le _ _ _⟩

/-- `toggle_play_pause` preserves the session invariant. -/
theorem inv_toggle (busy : Bool) (s s' : PlayerState) (hInv : Inv s)
    (h : toggle_play_pause busy s = some s') : Inv s' := by
  unfold toggle_play_pause at h
  split at h
  · split at h
    · exact inv_play_current _ _ hInv h
    · cases h
      exact hInv
  · cases h
    exact hInv

/-- `like_song` preserves the session invariant. -/
theorem inv_like (s s' : PlayerState) (hInv : Inv s)
    (h : like_song s = some s') : Inv s' := by
  unfold like_song at h
  split at h <;> (cases h; exact hInv)

/-- `next_track` preserves the session invariant. -/
theorem inv_next (b : Bool) (r : ℕ) (s s' : PlayerState) (hInv : Inv s)
    (h : next_track b r s = some s') : Inv s' := by
  unfold next_track at h
  obtain ⟨s1, hs1, hw⟩ := Option.bind_eq_some.mp h
  have hInv1 : Inv s1 := by
    obtain ⟨-, -, hpa, hem, hcap, hhist, hrec⟩ := next_track_core_frame b r s s1 hs1
    unfold Inv at *
    rw [hpa, hem, hcap, hhist]
    rcases hrec with hr | hr | ⟨hd, hr⟩ <;> rw [hr]
    · exact hInv
    · exact ⟨hInv.1, hInv.2.1, hInv.2.2.1, hInv.2.2.2.1, by simp⟩
    · exact ⟨hInv.1, hInv.2.1, hInv.2.2.1, hInv.2.2.2.1, dequeAppend_length_le _ _ _⟩
  split at hw
  · exact inv_play_current s1 s' hInv1 hw
  · cases hw
    exact hInv1

/-- `previous_track` preserves the session invariant. -/
theorem inv_prev (s s' : PlayerState) (hInv : Inv s)
    (h : previous_track s = some s') : Inv s' := by
  unfold previous_track at h
  have hInv1 : Inv (previous_track_core s) := by
    obtain ⟨-, -, hpa, hem, hcap, -, hrec, hhlen⟩ := previous_track_core_frame s
    unfold Inv at *
    rw [hpa, hem, hcap, hrec]
    exact ⟨hInv.1, hInv.2.1, hInv.2.2.1, le_trans hhlen hInv.2.2.2.1, hInv.2.2.2.2⟩
  split at h
  · exact inv_play_current _ _ hInv1 h
  · cases h
    exact hInv1

/-- `play_song_by_index` preserves the session invariant. -/
theorem inv_select (i : ℤ) (s s' : PlayerState) (hInv : Inv s)
    (h : play_song_by_index i s = some s') : Inv s' := by
  unfold play_song_by_index at h
  split at h
  · refine inv_play_current _ _ ?_ h
    unfold Inv at *
    exact ⟨hInv.1, hInv.2.1, hInv.2.2.1, hInv.2.2.2.1, by simp⟩
  · cases h
    exact hInv

/-- `shuffle_playlist` preserves the session invariant. -/
theorem inv_shuffle (l : List (String × List ℚ)) (s s' : PlayerState) (hInv : Inv s)
    (h : shuffle_playlist l s = some s') : Inv s' := by
  obtain ⟨-, hperm, rfl⟩ := shuffle_playlist_spec l s s' h
  unfold Inv at *
  have hlen : l.length = s.playlist_paths.length := by
    rw [hperm.length_eq, List.length_zip, hInv.1, Nat.min_self]
  refine ⟨by simp, ?_, ?_, hInv.2.2.2.1, by simp⟩
  · simp only [List.length_map, hlen]
    exact hInv.2.1
  · simp only [List.length_map, hlen]
    exact hInv.2.2.1

/-- Every single operation preserves the session invariant. -/
theorem inv_step (op : Op) (s s' : PlayerState) (hInv : Inv s)
    (h : step s op = some s') : Inv s' := by
  cases op with
  | toggle busy => exact inv_toggle busy s s' hInv h
  | like => exact inv_like s s' hInv h
  | next b r => exact inv_next b r s s' hInv h
  | prev => exact inv_prev s s' hInv h
  | select i => exact inv_select i s s' hInv h
  | shuffle l => exact inv_shuffle l s s' hInv h

/-- The session invariant is preserved along any successful run. -/
theorem inv_runOps (ops : List Op) (s s' : PlayerState) (hInv : Inv s)
    (h : runOps s ops = some s') : Inv s' := by
  induction ops generalizing s with
  | nil =>
    cases h
    exact hInv
  | cons op ops ih =>
    unfold runOps at h
    cases hstep : step s op with
    | none =>
      rw [hstep] at h
      cases h
    | some s1 =>
      rw [hstep] at h
      exact ih s1 (inv_step op s s1 hInv hstep) h

/-- C7, confirmed: starting from a freshly initialised session over non-empty
parallel arrays, after any successful sequence of operations both the
history stack and the recently-played deque hold at most
`|playlist| - 1` entries; moreover a deque append at full capacity evicts
the oldest entry. -/
theorem c7_recency_bound (paths : List String) (embs : List (List ℚ))
    (ops : List Op) (s' : PlayerState)
    (hpar : paths.length = embs.length) (hn : 1 ≤ paths.length)
    (hrun : runOps (initState paths embs) ops = some s') :
    s'.history.length ≤ s'.playlist_paths.length - 1 ∧
    s'.recently_played.length ≤ s'.playlist_paths.length - 1 ∧
    (∀ (c : ℕ) (l : List ℕ) (x : ℕ), l.length = c → 0 < c →
      dequeAppend c l x = l.tail ++ [x]) := by
  have hInv0 : Inv (initState paths embs) := by
    unfold Inv initState
    exact ⟨hpar, hn, rfl, by simp, by simp⟩
  obtain ⟨-, -, hcap, hhist, hrec⟩ := inv_runOps ops _ s' hInv0 hrun
  refine ⟨by rw [← hcap]; exact hhist, by rw [← hcap]; exact hrec, ?_⟩
  intro c l x hl hc
  unfold dequeAppend
  rw [List.length_append]
  simp only [List.length_cons, List.length_nil]
  have h1 : l.length + (0 + 1) - c = 1 := by omega
  rw [h1, List.drop_append_of_le_length (by omega), List.drop_one]

/-- C7, witness at a freshly initialised singleton session. -/
theorem c7_recency_bound_witness :
    (initState ["a"] [[0]]).history.length ≤
      (initState ["a"] [[0]]).playlist_paths.length - 1 :=
  (c7_recency_bound ["a"] [[0]] [] (initState ["a"] [[0]])
    (by decide) (by decide) rfl).1

end VibeShuffle
